import Mathlib

/-!
Verification of `ParseHeaderTemplate` from the `combo23/http-template`
repository.  The repository has two near-duplicate implementations:
`template.go` (package `headerloader`, which special-cases both `cookie`
and `content-length`) and `parser.go` (package `http_template`, which
special-cases only `cookie`).  Both are embedded below, sharing the line
classification core, which is literally identical in the two files.

Text is modelled at rune level (`List Char`); the Go code's byte-level
operations (`strings.IndexByte` with `':'`, `strings.HasPrefix` with
`":"`, `bufio.ScanLines`) coincide with the rune-level view because the
delimiters involved are ASCII.  `strings.ToLower` is modelled by ASCII
case folding (`Char.toLower`).
-/

/-- Go `unicode.IsSpace`: the Unicode White_Space code points. -/
def goIsSpace (c : Char) : Bool :=
  (9 ≤ c.toNat && c.toNat ≤ 13) || c.toNat == 32 || c.toNat == 0x85 ||
  c.toNat == 0xA0 || c.toNat == 0x1680 ||
  (0x2000 ≤ c.toNat && c.toNat ≤ 0x200A) || c.toNat == 0x2028 ||
  c.toNat == 0x2029 || c.toNat == 0x202F || c.toNat == 0x205F ||
  c.toNat == 0x3000

/-- Removal of trailing white space (the right half of Go `strings.TrimSpace`). -/
def trimRight : List Char → List Char
  | [] => []
  | c :: cs =>
    match trimRight cs with
    | [] => if goIsSpace c then [] else [c]
    | d :: ds => c :: d :: ds

/-- Go `strings.TrimSpace`: leading and trailing white space removed. -/
def trimSpace (l : List Char) : List Char :=
  trimRight (l.dropWhile goIsSpace)

/-- Split a line at its first `':'` (Go `strings.IndexByte(line, ':')` plus the
slicing that follows it in both source files): `none` when the line has no
colon, otherwise the text before the first colon and the text after it. -/
def breakColon : List Char → Option (List Char × List Char)
  | [] => none
  | c :: cs =>
    if c = ':' then some ([], cs)
    else
      match breakColon cs with
      | none => none
      | some (pk, pv) => some (c :: pk, pv)

/-- Go `bufio.dropCR`: remove a single trailing `'\r'` from a scanned token. -/
def dropCR (l : List Char) : List Char :=
  if l.getLast? = some '\r' then l.dropLast else l

/-- Work loop of `bufio.ScanLines`: `acc` holds the current token reversed. -/
def scanLinesGo (acc : List Char) : List Char → List (List Char)
  | [] => [dropCR acc.reverse]
  | c :: cs =>
    if c = '\n' then
      dropCR acc.reverse :: (if cs = [] then [] else scanLinesGo [] cs)
    else
      scanLinesGo (c :: acc) cs

/-- Tokens produced by a `bufio.Scanner` with `bufio.ScanLines` over the given
text: lines split at `'\n'`, one trailing `'\r'` removed per line, no final
empty token after a trailing newline, no token at all for empty input. -/
def scanLines (s : List Char) : List (List Char) :=
  if s = [] then [] else scanLinesGo [] s

/-- Go `strings.ToLower` restricted to ASCII case folding. -/
def lowerStr (s : String) : String :=
  String.mk (s.data.map Char.toLower)

/-- Go `strings.HasPrefix(s, ":")`: the first character is a colon. -/
def startsColon (s : String) : Bool :=
  s.data.head? == some ':'

/-- Construction of the pseudo-header key in both source files:
`key = ":"` when the name part is empty, otherwise `":" + part`. -/
def mkPseudoKey (part : List Char) : String :=
  if part = [] then ":" else String.mk (':' :: part)

/-- The key/value computation shared verbatim by both source files, applied to
the trimmed line and its split at the first colon.  The pseudo-header branch
fires when the text before the first colon trims to nothing and the trimmed
line starts with `':'`; it then looks for a second colon inside the remainder.
Otherwise key and value are the trimmed halves of the first-colon split. -/
def computeKV (trimmedLine pk pv : List Char) : String × String :=
  if trimSpace pk = [] ∧ trimmedLine.head? = some ':' then
    match breakColon pv with
    | none => (mkPseudoKey (trimSpace pv), "")
    | some (a, b) => (mkPseudoKey (trimSpace a), String.mk (trimSpace b))
  else
    (String.mk (trimSpace pk), String.mk (trimSpace pv))

/-- One loop iteration's line analysis, shared by both source files: skip
blank lines, skip lines without a colon, compute key/value, skip an empty
key.  Returns the key/value pair the collector acts on, or `none` for a
skipped line. -/
def classifyLine (line : List Char) : Option (String × String) :=
  let trimmedLine := trimSpace line
  if trimmedLine = [] then none
  else
    match breakColon trimmedLine with
    | none => none
    | some (pk, pv) =>
      let kv := computeKV trimmedLine pk pv
      if kv.1 = "" then none else some kv

/-- Collector state of the parsing loop: the `outputHeaders` map (as an
association list in insertion order), the two order lists, and the
`cookieHeaderAddedToOrder` flag. -/
structure ParseState where
  headers : List (String × List String)
  pseudo : List String
  regular : List String
  cookieAdded : Bool
deriving DecidableEq

/-- The state before the loop: empty map, empty order lists, flag down. -/
def initState : ParseState := ⟨[], [], [], false⟩

/-- Go `outputHeaders[key] = append(existingValues, value)` /
`outputHeaders[key] = []string{value}`: append `v` to the entry of `key`,
creating the entry on first occurrence. -/
def addHeaderValue : List (String × List String) → String → String → List (String × List String)
  | [], key, v => [(key, [v])]
  | (k, vs) :: rest, key, v =>
    if k = key then (k, vs ++ [v]) :: rest
    else (k, vs) :: addHeaderValue rest key v

/-- Go map read `outputHeaders[k]` on the association-list model. -/
def headerLookup : List (String × List String) → String → Option (List String)
  | [], _ => none
  | (k, vs) :: rest, key => if k = key then some vs else headerLookup rest key

/-- Go map write `m[key] = vs`: replace the entry if present, else add it. -/
def setHeader : List (String × List String) → String → List String → List (String × List String)
  | [], key, vs => [(key, vs)]
  | (k, ws) :: rest, key, vs =>
    if k = key then (key, vs) :: rest
    else (k, ws) :: setHeader rest key vs

/-- `http.HeaderOrderKey` from the `bogdanfinn/fhttp` dependency. -/
def HeaderOrderKey : String := "Header-Order:"

/-- `http.PHeaderOrderKey` from the `bogdanfinn/fhttp` dependency. -/
def PHeaderOrderKey : String := "PHeader-Order:"

/-- The epilogue of both source files: attach the pseudo order list and the
regular order list to the map under the reserved keys, each only when
non-empty. -/
def assemble (st : ParseState) : List (String × List String) :=
  let m1 := if 0 < st.pseudo.length then setHeader st.headers PHeaderOrderKey st.pseudo else st.headers
  if 0 < st.regular.length then setHeader m1 HeaderOrderKey st.regular else m1

/-- Outcome of the external `text/template` collaborator: compilation
(`template.Parse`) failure, execution (`template.Execute`) failure, or the
rendered text. -/
inductive RenderResult where
  | parseFailure (msg : String)
  | execFailure (msg : String)
  | rendered (text : String)

namespace Headerloader

/-- Loop body of `ParseHeaderTemplate` in `template.go` (package
`headerloader`): pseudo keys go to the pseudo order list; `cookie` goes to
the regular order list at most once and never to the map; `content-length`
goes to the regular order list on every occurrence and never to the map;
every other key goes to the regular order list and its value to the map. -/
def step (st : ParseState) (line : List Char) : ParseState :=
  match classifyLine line with
  | none => st
  | some (key, value) =>
    if startsColon key then
      { st with pseudo := st.pseudo ++ [key] }
    else
      let lowerKey := lowerStr key
      if lowerKey = "cookie" then
        if st.cookieAdded then st
        else { st with regular := st.regular ++ [key], cookieAdded := true }
      else if lowerKey = "content-length" then
        { st with regular := st.regular ++ [key] }
      else
        { st with
            regular := st.regular ++ [key],
            headers := addHeaderValue st.headers key value }

/-- Collector state at the end of the scanning loop of `template.go`: the
first scanned line is discarded, the remaining lines are folded through
`step`. -/
def parseStateOf (text : String) : ParseState :=
  match scanLines text.data with
  | [] => initState
  | _ :: rest => rest.foldl step initState

/-- The pure parsing part of `template.go`'s `ParseHeaderTemplate`, applied
to already-rendered text: scan lines, drop the request line, fold the loop
body, assemble the order lists into the map.  When the text has no first
line at all the map is returned empty without assembly. -/
def parseRendered (text : String) : List (String × List String) :=
  match scanLines text.data with
  | [] => []
  | _ :: rest => assemble (rest.foldl step initState)

/-- `ParseHeaderTemplate` of `template.go`, with the external template engine
abstracted into its outcome: a compile failure and an execution failure each
return a nil map and a wrapped error; otherwise the rendered text is parsed
and returned with no error. -/
def ParseHeaderTemplate (r : RenderResult) :
    Option (List (String × List String)) × Option String :=
  match r with
  | .parseFailure msg => (none, some ("failed to parse template string: " ++ msg))
  | .execFailure msg => (none, some ("failed to execute template: " ++ msg))
  | .rendered text => (some (parseRendered text), none)

end Headerloader

namespace HttpTemplate

/-- Loop body of `ParseHeaderTemplate` in `parser.go` (package
`http_template`): identical to `template.go`'s loop body except that there
is no `content-length` case, so a `content-length` header is treated as an
ordinary regular header and lands in the map. -/
def step (st : ParseState) (line : List Char) : ParseState :=
  match classifyLine line with
  | none => st
  | some (key, value) =>
    if startsColon key then
      { st with pseudo := st.pseudo ++ [key] }
    else
      if lowerStr key = "cookie" then
        if st.cookieAdded then st
        else { st with regular := st.regular ++ [key], cookieAdded := true }
      else
        { st with
            regular := st.regular ++ [key],
            headers := addHeaderValue st.headers key value }

/-- Collector state at the end of the scanning loop of `parser.go`. -/
def parseStateOf (text : String) : ParseState :=
  match scanLines text.data with
  | [] => initState
  | _ :: rest => rest.foldl step initState

/-- The pure parsing part of `parser.go`'s `ParseHeaderTemplate`. -/
def parseRendered (text : String) : List (String × List String) :=
  match scanLines text.data with
  | [] => []
  | _ :: rest => assemble (rest.foldl step initState)

/-- `ParseHeaderTemplate` of `parser.go`, the template engine abstracted
into its outcome. -/
def ParseHeaderTemplate (r : RenderResult) :
    Option (List (String × List String)) × Option String :=
  match r with
  | .parseFailure msg => (none, some ("failed to parse template string: " ++ msg))
  | .execFailure msg => (none, some ("failed to execute template: " ++ msg))
  | .rendered text => (some (parseRendered text), none)

end HttpTemplate

example : Headerloader.parseRendered "GET / HTTP/2\nAccept: text/html\n"
    = [("Accept", ["text/html"]), (HeaderOrderKey, ["Accept"])] := by decide

example : Headerloader.parseRendered "GET / HTTP/2\n:method: GET\n:path: /\nHost: example.com\n"
    = [("Host", ["example.com"]), (PHeaderOrderKey, [":method", ":path"]),
       (HeaderOrderKey, ["Host"])] := by decide

example : Headerloader.parseRendered "GET / HTTP/2\nCookie: a=1\ncookie: b=2\n"
    = [(HeaderOrderKey, ["Cookie"])] := by decide

example : Headerloader.parseRendered "GET / HTTP/2\n\n   \nX: y\n"
    = [("X", ["y"]), (HeaderOrderKey, ["X"])] := by decide

example : Headerloader.parseRendered "GET / HTTP/2" = [] := by decide

example : Headerloader.parseRendered "REQ\nX-A: 1\nX-A: 2\n"
    = [("X-A", ["1", "2"]), (HeaderOrderKey, ["X-A", "X-A"])] := by decide

example : HttpTemplate.parseRendered "REQ\nContent-Length: 5\n"
    = [("Content-Length", ["5"]), (HeaderOrderKey, ["Content-Length"])] := by decide

example : Headerloader.parseRendered "REQ\nContent-Length: 5\n"
    = [(HeaderOrderKey, ["Content-Length"])] := by decide

/-! ### Basic facts about trimming and colon splitting -/

theorem trimRight_mem {x : Char} : ∀ {m : List Char}, x ∈ trimRight m → x ∈ m := by
  intro m
  induction m with
  | nil => simp [trimRight]
  | cons a cs ih =>
    intro hx
    rw [trimRight] at hx
    cases h : trimRight cs with
    | nil =>
      rw [h] at hx
      by_cases ha : goIsSpace a
      · rw [if_pos ha] at hx
        simp at hx
      · rw [if_neg ha] at hx
        simp at hx
        simp [hx]
    | cons d ds =>
      rw [h] at hx
      rcases List.mem_cons.mp hx with h1 | h2
      · simp [h1]
      · exact List.mem_cons_of_mem a (ih (h ▸ h2 : x ∈ trimRight cs))

theorem trimRight_eq_nil : ∀ {m : List Char}, trimRight m = [] → ∀ x ∈ m, goIsSpace x = true := by
  intro m
  induction m with
  | nil => simp
  | cons a cs ih =>
    intro hm x hx
    rw [trimRight] at hm
    cases h : trimRight cs with
    | nil =>
      rw [h] at hm
      by_cases ha : goIsSpace a
      · rcases List.mem_cons.mp hx with h1 | h2
        · rw [h1]; exact ha
        · exact ih h x h2
      · rw [if_neg ha] at hm
        simp at hm
    | cons d ds =>
      rw [h] at hm
      simp at hm

theorem trimRight_head : ∀ {m : List Char} {c : Char} {t : List Char},
    trimRight m = c :: t → m.head? = some c := by
  intro m c t
  cases m with
  | nil => intro h; simp [trimRight] at h
  | cons a cs =>
    intro h
    rw [trimRight] at h
    cases h' : trimRight cs with
    | nil =>
      rw [h'] at h
      by_cases ha : goIsSpace a
      · rw [if_pos ha] at h; simp at h
      · rw [if_neg ha] at h
        simp at h
        simp [h.1]
    | cons d ds =>
      rw [h'] at h
      simp at h
      simp [h.1]

theorem dropWhile_mem {x : Char} {p : Char → Bool} :
    ∀ {l : List Char}, x ∈ l.dropWhile p → x ∈ l := by
  intro l
  induction l with
  | nil => simp
  | cons a cs ih =>
    intro hx
    rw [List.dropWhile_cons] at hx
    by_cases ha : p a
    · rw [if_pos ha] at hx
      exact List.mem_cons_of_mem a (ih hx)
    · rw [if_neg ha] at hx
      exact hx

theorem dropWhile_head_not {p : Char → Bool} :
    ∀ {l : List Char} {c : Char} {t : List Char}, l.dropWhile p = c :: t → p c = false := by
  intro l
  induction l with
  | nil => simp
  | cons a cs ih =>
    intro c t h
    rw [List.dropWhile_cons] at h
    by_cases ha : p a
    · rw [if_pos ha] at h
      exact ih h
    · rw [if_neg ha] at h
      rw [← (List.cons.injEq a cs c t).mp h |>.1]
      exact Bool.of_not_eq_true ha

theorem dropWhile_all {p : Char → Bool} :
    ∀ {l : List Char}, (∀ x ∈ l.dropWhile p, p x = true) → ∀ x ∈ l, p x = true := by
  intro l
  induction l with
  | nil => simp
  | cons a cs ih =>
    intro hall x hx
    rw [List.dropWhile_cons] at hall
    by_cases ha : p a
    · rw [if_pos ha] at hall
      rcases List.mem_cons.mp hx with h1 | h2
      · rw [h1]; exact ha
      · exact ih hall x h2
    · rw [if_neg ha] at hall
      exact hall x hx

theorem trimSpace_mem {x : Char} {l : List Char} (h : x ∈ trimSpace l) : x ∈ l :=
  dropWhile_mem (trimRight_mem h)

theorem trimSpace_head_not_space {l : List Char} {c : Char} {t : List Char}
    (h : trimSpace l = c :: t) : goIsSpace c = false := by
  unfold trimSpace at h
  have h1 := trimRight_head h
  cases hd : l.dropWhile goIsSpace with
  | nil => rw [hd] at h1; simp at h1
  | cons d ds =>
    rw [hd] at h1
    simp at h1
    rw [← h1]
    exact dropWhile_head_not hd

theorem trimSpace_eq_nil {l : List Char} (h : trimSpace l = []) :
    ∀ x ∈ l, goIsSpace x = true := by
  unfold trimSpace at h
  exact dropWhile_all (trimRight_eq_nil h)

theorem breakColon_eq : ∀ {l pk pv : List Char},
    breakColon l = some (pk, pv) → l = pk ++ ':' :: pv ∧ ':' ∉ pk := by
  intro l
  induction l with
  | nil => simp [breakColon]
  | cons c cs ih =>
    intro pk pv h
    rw [breakColon] at h
    by_cases hc : c = ':'
    · rw [if_pos hc] at h
      simp only [Option.some.injEq, Prod.mk.injEq] at h
      obtain ⟨h1, h2⟩ := h
      subst hc
      rw [← h1, ← h2]
      simp
    · rw [if_neg hc] at h
      cases h' : breakColon cs with
      | none => rw [h'] at h; simp at h
      | some q =>
        obtain ⟨pk', pv'⟩ := q
        rw [h'] at h
        simp only [Option.some.injEq, Prod.mk.injEq] at h
        obtain ⟨h1, h2⟩ := h
        obtain ⟨he, hv⟩ := ih h'
        subst h1
        subst h2
        constructor
        · rw [he]; rfl
        · intro hmem
          rcases List.mem_cons.mp hmem with h1 | h2
          · exact hc h1.symm
          · exact hv h2

theorem breakColon_of_not_mem : ∀ {l : List Char}, ':' ∉ l → breakColon l = none := by
  intro l
  induction l with
  | nil => simp [breakColon]
  | cons c cs ih =>
    intro h
    rw [breakColon]
    have hc : ¬c = ':' := fun he => h (he ▸ List.mem_cons_self c cs)
    rw [if_neg hc, ih (fun hm => h (List.mem_cons_of_mem c hm))]

/-! ### Facts about the computed keys -/

theorem String_mk_ne_empty {l : List Char} (h : l ≠ []) : String.mk l ≠ "" := by
  intro he
  exact h (congrArg String.data he)

theorem mkPseudoKey_ne_empty (part : List Char) : mkPseudoKey part ≠ "" := by
  unfold mkPseudoKey
  by_cases h : part = []
  · rw [if_pos h]; decide
  · rw [if_neg h]; exact String_mk_ne_empty (by simp)

theorem startsColon_mkPseudoKey (part : List Char) : startsColon (mkPseudoKey part) = true := by
  unfold mkPseudoKey startsColon
  by_cases h : part = []
  · rw [if_pos h]; decide
  · rw [if_neg h]; simp

theorem computeKV_key_ne_empty {line pk pv : List Char}
    (h : breakColon (trimSpace line) = some (pk, pv)) :
    (computeKV (trimSpace line) pk pv).1 ≠ "" := by
  obtain ⟨he, -⟩ := breakColon_eq h
  unfold computeKV
  by_cases hcond : trimSpace pk = [] ∧ (trimSpace line).head? = some ':'
  · rw [if_pos hcond]
    cases hb : breakColon pv with
    | none => exact mkPseudoKey_ne_empty _
    | some q =>
      obtain ⟨a, b⟩ := q
      exact mkPseudoKey_ne_empty _
  · rw [if_neg hcond]
    cases pk with
    | nil =>
      exfalso
      apply hcond
      refine ⟨rfl, ?_⟩
      rw [he]
      rfl
    | cons c pk' =>
      have hhead : goIsSpace c = false :=
        trimSpace_head_not_space (show trimSpace line = c :: (pk' ++ ':' :: pv) by rw [he]; rfl)
      intro hke
      have hnil : trimSpace (c :: pk') = [] := congrArg String.data hke
      have hsp := trimSpace_eq_nil hnil c (List.mem_cons_self c pk')
      rw [hhead] at hsp
      exact Bool.false_ne_true hsp

theorem computeKV_fst_colon {t pk pv : List Char} (hpk : ':' ∉ pk) :
    startsColon (computeKV t pk pv).1 = true ∨ ':' ∉ (computeKV t pk pv).1.data := by
  unfold computeKV
  by_cases hcond : trimSpace pk = [] ∧ t.head? = some ':'
  · rw [if_pos hcond]
    cases hb : breakColon pv with
    | none => exact Or.inl (startsColon_mkPseudoKey _)
    | some q =>
      obtain ⟨a, b⟩ := q
      exact Or.inl (startsColon_mkPseudoKey _)
  · rw [if_neg hcond]
    right
    intro hmem
    exact hpk (trimSpace_mem hmem)

theorem classifyLine_eq_some {line pk pv : List Char}
    (hb : breakColon (trimSpace line) = some (pk, pv)) :
    classifyLine line = some (computeKV (trimSpace line) pk pv) := by
  have hne : trimSpace line ≠ [] := by
    intro h0
    rw [h0] at hb
    simp [breakColon] at hb
  have hkey := computeKV_key_ne_empty hb
  simp only [classifyLine]
  rw [if_neg hne, hb]
  simp only []
  rw [if_neg hkey]

theorem classifyLine_key {line : List Char} {k v : String}
    (h : classifyLine line = some (k, v)) :
    k ≠ "" ∧ (startsColon k = true ∨ ':' ∉ k.data) := by
  simp only [classifyLine] at h
  by_cases h0 : trimSpace line = []
  · rw [if_pos h0] at h
    simp at h
  · rw [if_neg h0] at h
    cases hb : breakColon (trimSpace line) with
    | none => rw [hb] at h; simp at h
    | some q =>
      obtain ⟨pk, pv⟩ := q
      rw [hb] at h
      simp only [] at h
      by_cases hk : (computeKV (trimSpace line) pk pv).1 = ""
      · rw [if_pos hk] at h; simp at h
      · rw [if_neg hk] at h
        simp only [Option.some.injEq] at h
        have hfst : (computeKV (trimSpace line) pk pv).1 = k := congrArg Prod.fst h
        constructor
        · rw [← hfst]; exact hk
        · rw [← hfst]
          exact computeKV_fst_colon (breakColon_eq hb).2

theorem startsColon_eq_false {k : String} (h : ':' ∉ k.data) : startsColon k = false := by
  unfold startsColon
  cases hd : k.data with
  | nil => rfl
  | cons c t =>
    have hc : ¬c = ':' := by
      intro hce
      apply h
      rw [hd, hce]
      exact List.mem_cons_self ':' t
    simp [hc]

theorem lowerStr_ne_of_startsColon {k : String} (h : startsColon k = true) :
    lowerStr k ≠ "cookie" ∧ lowerStr k ≠ "content-length" := by
  obtain ⟨data⟩ := k
  unfold startsColon at h
  cases data with
  | nil => simp at h
  | cons c t =>
    simp at h
    subst h
    constructor
    · intro hc
      have hd : Char.toLower ':' :: t.map Char.toLower = ['c', 'o', 'o', 'k', 'i', 'e'] :=
        congrArg String.data hc
      injection hd with h1 _
      exact absurd h1 (by decide)
    · intro hc
      have hd : Char.toLower ':' :: t.map Char.toLower
          = ['c', 'o', 'n', 't', 'e', 'n', 't', '-', 'l', 'e', 'n', 'g', 't', 'h'] :=
        congrArg String.data hc
      injection hd with h1 _
      exact absurd h1 (by decide)

/-! ### Occurrence extractors for the order-list claims -/

/-- The keys of the `content-length` lines (any casing) among the given lines,
in order, with original casing. -/
def clKeysOf (lines : List (List Char)) : List String :=
  lines.filterMap fun l =>
    match classifyLine l with
    | some kv => if lowerStr kv.1 = "content-length" then some kv.1 else none
    | none => none

/-- The keys of the `cookie` lines (any casing) among the given lines, in
order, with original casing. -/
def cookieKeysOf (lines : List (List Char)) : List String :=
  lines.filterMap fun l =>
    match classifyLine l with
    | some kv => if lowerStr kv.1 = "cookie" then some kv.1 else none
    | none => none

theorem clKeysOf_append (a b : List (List Char)) :
    clKeysOf (a ++ b) = clKeysOf a ++ clKeysOf b :=
  List.filterMap_append a b _

theorem cookieKeysOf_append (a b : List (List Char)) :
    cookieKeysOf (a ++ b) = cookieKeysOf a ++ cookieKeysOf b :=
  List.filterMap_append a b _

theorem headerLookup_addHeaderValue (key v k : String) :
    ∀ hs : List (String × List String),
    headerLookup (addHeaderValue hs key v) k
      = if k = key then some ((headerLookup hs key).getD [] ++ [v])
        else headerLookup hs k := by
  intro hs
  induction hs with
  | nil =>
    by_cases h : k = key
    · subst h
      simp [addHeaderValue, headerLookup]
    · have h' : ¬key = k := fun he => h he.symm
      simp [addHeaderValue, headerLookup, h, h']
  | cons e rest ih =>
    obtain ⟨k', vs⟩ := e
    simp only [addHeaderValue]
    by_cases h1 : k' = key
    · rw [if_pos h1]
      simp only [headerLookup, if_pos h1]
      by_cases h2 : k = key
      · have h3 : k' = k := h1.trans h2.symm
        rw [if_pos h2, if_pos h3]
        simp
      · have h3 : ¬k' = k := fun he => h2 ((h1.symm.trans he).symm)
        rw [if_neg h2, if_neg h3, if_neg h3]
    · rw [if_neg h1]
      simp only [headerLookup, if_neg h1]
      by_cases h2 : k' = k
      · have h3 : ¬k = key := fun he => h1 (h2.trans he)
        rw [if_pos h2, if_neg h3, if_pos h2]
      · rw [if_neg h2, if_neg h2, ih]

/-! ### Characterization of the loop bodies on classified lines -/

theorem stepHL_none {st : ParseState} {line : List Char}
    (hcl : classifyLine line = none) : Headerloader.step st line = st := by
  unfold Headerloader.step
  rw [hcl]

theorem stepHL_some {st : ParseState} {line : List Char} {key value : String}
    (hcl : classifyLine line = some (key, value)) :
    Headerloader.step st line =
      if startsColon key then { st with pseudo := st.pseudo ++ [key] }
      else if lowerStr key = "cookie" then
        (if st.cookieAdded then st
         else { st with regular := st.regular ++ [key], cookieAdded := true })
      else if lowerStr key = "content-length" then
        { st with regular := st.regular ++ [key] }
      else
        { st with
            regular := st.regular ++ [key],
            headers := addHeaderValue st.headers key value } := by
  unfold Headerloader.step
  rw [hcl]

theorem stepHT_none {st : ParseState} {line : List Char}
    (hcl : classifyLine line = none) : HttpTemplate.step st line = st := by
  unfold HttpTemplate.step
  rw [hcl]

theorem stepHT_some {st : ParseState} {line : List Char} {key value : String}
    (hcl : classifyLine line = some (key, value)) :
    HttpTemplate.step st line =
      if startsColon key then { st with pseudo := st.pseudo ++ [key] }
      else if lowerStr key = "cookie" then
        (if st.cookieAdded then st
         else { st with regular := st.regular ++ [key], cookieAdded := true })
      else
        { st with
            regular := st.regular ++ [key],
            headers := addHeaderValue st.headers key value } := by
  unfold HttpTemplate.step
  rw [hcl]

/-! ### `content-length` behaviour of the `template.go` loop body -/

theorem stepHL_filter_cl (st : ParseState) (line : List Char) :
    ((Headerloader.step st line).regular.filter fun k => lowerStr k == "content-length")
      = (st.regular.filter fun k => lowerStr k == "content-length") ++ clKeysOf [line] := by
  cases hcl : classifyLine line with
  | none => simp [stepHL_none hcl, clKeysOf, hcl]
  | some kv =>
    obtain ⟨key, value⟩ := kv
    rw [stepHL_some hcl]
    simp only [clKeysOf, List.filterMap_cons, List.filterMap_nil, hcl]
    by_cases hps : startsColon key
    · rw [if_pos hps]
      have hne := (lowerStr_ne_of_startsColon hps).2
      simp [hne]
    · rw [if_neg hps]
      by_cases hck : lowerStr key = "cookie"
      · rw [if_pos hck]
        have hne : lowerStr key ≠ "content-length" := by rw [hck]; decide
        by_cases hfl : st.cookieAdded
        · rw [if_pos hfl]
          simp [hne]
        · rw [if_neg hfl]
          simp [hne]
      · rw [if_neg hck]
        by_cases hcl2 : lowerStr key = "content-length"
        · rw [if_pos hcl2]
          simp [hcl2, List.filter_append]
        · rw [if_neg hcl2]
          simp [hcl2, List.filter_append]

theorem foldHL_filter_cl (lines : List (List Char)) :
    ∀ st : ParseState,
    ((lines.foldl Headerloader.step st).regular.filter fun k => lowerStr k == "content-length")
      = (st.regular.filter fun k => lowerStr k == "content-length") ++ clKeysOf lines := by
  induction lines with
  | nil => intro st; simp [clKeysOf]
  | cons l ls ih =>
    intro st
    rw [List.foldl_cons, ih (Headerloader.step st l), stepHL_filter_cl st l]
    have hsplit : clKeysOf (l :: ls) = clKeysOf [l] ++ clKeysOf ls := by
      simpa using clKeysOf_append [l] ls
    rw [hsplit, List.append_assoc]

theorem stepHL_lookup_suppressed (st : ParseState) (line : List Char) (k : String)
    (hk : lowerStr k = "cookie" ∨ lowerStr k = "content-length") :
    headerLookup (Headerloader.step st line).headers k = headerLookup st.headers k := by
  cases hcl : classifyLine line with
  | none => rw [stepHL_none hcl]
  | some kv =>
    obtain ⟨key, value⟩ := kv
    rw [stepHL_some hcl]
    by_cases hps : startsColon key
    · rw [if_pos hps]
    · rw [if_neg hps]
      by_cases hck : lowerStr key = "cookie"
      · rw [if_pos hck]
        by_cases hfl : st.cookieAdded
        · rw [if_pos hfl]
        · rw [if_neg hfl]
      · rw [if_neg hck]
        by_cases hcl2 : lowerStr key = "content-length"
        · rw [if_pos hcl2]
        · rw [if_neg hcl2]
          simp only []
          rw [headerLookup_addHeaderValue]
          have hkey : ¬k = key := by
            intro he
            subst he
            rcases hk with h | h
            · exact hck h
            · exact hcl2 h
          rw [if_neg hkey]

theorem foldHL_lookup_suppressed (lines : List (List Char)) (k : String)
    (hk : lowerStr k = "cookie" ∨ lowerStr k = "content-length") :
    ∀ st : ParseState,
    headerLookup (lines.foldl Headerloader.step st).headers k = headerLookup st.headers k := by
  induction lines with
  | nil => intro st; rfl
  | cons l ls ih =>
    intro st
    rw [List.foldl_cons, ih (Headerloader.step st l), stepHL_lookup_suppressed st l k hk]

/-- Claim C1: for every rendered text, the `template.go` implementation never
places a key case-insensitively equal to "content-length" in the value map,
and the regular-order list's `content-length` entries are exactly the keys
(original casing) of the `content-length` lines, one per occurrence. -/
theorem claim1_content_length (text : String) :
    (∀ k : String, lowerStr k = "content-length" →
        headerLookup (Headerloader.parseStateOf text).headers k = none)
    ∧ ((Headerloader.parseStateOf text).regular.filter fun k => lowerStr k == "content-length")
        = clKeysOf ((scanLines text.data).drop 1) := by
  unfold Headerloader.parseStateOf
  cases hsc : scanLines text.data with
  | nil =>
    refine ⟨fun k hk => rfl, ?_⟩
    simp [clKeysOf, initState]
  | cons l rest =>
    constructor
    · intro k hk
      rw [foldHL_lookup_suppressed rest k (Or.inr hk) initState]
      rfl
    · rw [foldHL_filter_cl rest initState]
      simp [initState]

/-- Concrete instantiation for claim C1. -/
theorem claim1_content_length_witness :
    headerLookup (Headerloader.parseStateOf "REQ\nContent-Length: 5\n").headers "Content-Length"
      = none :=
  (claim1_content_length "REQ\nContent-Length: 5\n").1 "Content-Length" (by decide)

/-! ### Agreement of the two loop bodies away from `content-length` -/

/-- Whether a line classifies to a header whose key case-insensitively equals
"content-length". -/
def isCLLine (l : List Char) : Bool :=
  match classifyLine l with
  | some kv => lowerStr kv.1 == "content-length"
  | none => false

theorem step_eq_of_not_cl (st : ParseState) (l : List Char) (h : isCLLine l = false) :
    HttpTemplate.step st l = Headerloader.step st l := by
  cases hcl : classifyLine l with
  | none => rw [stepHT_none hcl, stepHL_none hcl]
  | some kv =>
    obtain ⟨key, value⟩ := kv
    rw [stepHT_some hcl, stepHL_some hcl]
    unfold isCLLine at h
    rw [hcl] at h
    simp at h
    by_cases hps : startsColon key
    · rw [if_pos hps, if_pos hps]
    · rw [if_neg hps, if_neg hps]
      by_cases hck : lowerStr key = "cookie"
      · rw [if_pos hck, if_pos hck]
      · rw [if_neg hck, if_neg hck, if_neg h]

theorem fold_eq_of_not_cl (lines : List (List Char)) :
    ∀ st : ParseState, (∀ l ∈ lines, isCLLine l = false) →
    lines.foldl HttpTemplate.step st = lines.foldl Headerloader.step st := by
  induction lines with
  | nil => intro st _; rfl
  | cons l ls ih =>
    intro st hall
    rw [List.foldl_cons, List.foldl_cons,
        step_eq_of_not_cl st l (hall l (List.mem_cons_self l ls)),
        ih _ (fun x hx => hall x (List.mem_cons_of_mem l hx))]

/-- Claim C2: the two `ParseHeaderTemplate` implementations agree on every
rendered text without a `content-length` line; on `"REQ\nContent-Length: 5\n"`
they differ, `template.go` keeping the key out of the value map while
`parser.go` stores it like an ordinary regular header. -/
theorem claim2_implementations :
    (∀ text : String, (∀ l ∈ (scanLines text.data).drop 1, isCLLine l = false) →
        HttpTemplate.parseRendered text = Headerloader.parseRendered text)
    ∧ Headerloader.parseRendered "REQ\nContent-Length: 5\n"
        = [(HeaderOrderKey, ["Content-Length"])]
    ∧ HttpTemplate.parseRendered "REQ\nContent-Length: 5\n"
        = [("Content-Length", ["5"]), (HeaderOrderKey, ["Content-Length"])] := by
  refine ⟨?_, by decide, by decide⟩
  intro text hall
  unfold HttpTemplate.parseRendered Headerloader.parseRendered
  cases hsc : scanLines text.data with
  | nil => rfl
  | cons l rest =>
    have hall' : ∀ x ∈ rest, isCLLine x = false := by
      intro x hx
      apply hall
      rw [hsc]
      simpa using hx
    show assemble (List.foldl HttpTemplate.step initState rest)
        = assemble (List.foldl Headerloader.step initState rest)
    rw [fold_eq_of_not_cl rest initState hall']

/-- Concrete instantiation for claim C2. -/
theorem claim2_implementations_witness :
    HttpTemplate.parseRendered "REQ\nHost: a\n" = Headerloader.parseRendered "REQ\nHost: a\n" :=
  claim2_implementations.1 "REQ\nHost: a\n" (by decide)

/-! ### `cookie` behaviour of the two loop bodies -/

theorem stepHL_cookie_filter (st : ParseState) (line : List Char) :
    (((Headerloader.step st line).regular.filter fun k => lowerStr k == "cookie")
      = (st.regular.filter fun k => lowerStr k == "cookie")
        ++ (if st.cookieAdded then [] else (cookieKeysOf [line]).take 1))
    ∧ (Headerloader.step st line).cookieAdded
        = (st.cookieAdded || !(cookieKeysOf [line]).isEmpty) := by
  cases hcl : classifyLine line with
  | none =>
    rw [stepHL_none hcl]
    simp [cookieKeysOf, hcl]
  | some kv =>
    obtain ⟨key, value⟩ := kv
    rw [stepHL_some hcl]
    simp only [cookieKeysOf, List.filterMap_cons, List.filterMap_nil, hcl]
    by_cases hps : startsColon key
    · rw [if_pos hps]
      have hne := (lowerStr_ne_of_startsColon hps).1
      simp [hne]
    · rw [if_neg hps]
      by_cases hck : lowerStr key = "cookie"
      · rw [if_pos hck]
        by_cases hfl : st.cookieAdded
        · rw [if_pos hfl]
          simp [hck, hfl]
        · rw [if_neg hfl]
          simp [hck, hfl, List.filter_append]
      · rw [if_neg hck]
        by_cases hcl2 : lowerStr key = "content-length"
        · rw [if_pos hcl2]
          simp [hck, List.filter_append]
        · rw [if_neg hcl2]
          simp [hck, List.filter_append]

theorem stepHT_cookie_filter (st : ParseState) (line : List Char) :
    (((HttpTemplate.step st line).regular.filter fun k => lowerStr k == "cookie")
      = (st.regular.filter fun k => lowerStr k == "cookie")
        ++ (if st.cookieAdded then [] else (cookieKeysOf [line]).take 1))
    ∧ (HttpTemplate.step st line).cookieAdded
        = (st.cookieAdded || !(cookieKeysOf [line]).isEmpty) := by
  by_cases hcl0 : isCLLine line = true
  · unfold isCLLine at hcl0
    cases hcl : classifyLine line with
    | none => rw [hcl] at hcl0; simp at hcl0
    | some kv =>
      obtain ⟨key, value⟩ := kv
      rw [hcl] at hcl0
      simp at hcl0
      rw [stepHT_some hcl]
      have hps : ¬startsColon key = true := by
        intro h
        exact (lowerStr_ne_of_startsColon h).2 hcl0
      have hck : ¬lowerStr key = "cookie" := by
        rw [hcl0]; decide
      rw [if_neg hps, if_neg hck]
      simp [cookieKeysOf, hcl, hck, List.filter_append]
  · have h : isCLLine line = false := by
      cases hb : isCLLine line
      · rfl
      · exact absurd hb hcl0
    rw [step_eq_of_not_cl st line h]
    exact stepHL_cookie_filter st line

theorem foldHL_cookie (lines : List (List Char)) :
    ∀ st : ParseState,
    (((lines.foldl Headerloader.step st).regular.filter fun k => lowerStr k == "cookie")
      = (st.regular.filter fun k => lowerStr k == "cookie")
        ++ (if st.cookieAdded then [] else (cookieKeysOf lines).take 1))
    ∧ (lines.foldl Headerloader.step st).cookieAdded
        = (st.cookieAdded || !(cookieKeysOf lines).isEmpty) := by
  induction lines with
  | nil => intro st; simp [cookieKeysOf]
  | cons l ls ih =>
    intro st
    rw [List.foldl_cons]
    obtain ⟨ih1, ih2⟩ := ih (Headerloader.step st l)
    obtain ⟨s1, s2⟩ := stepHL_cookie_filter st l
    have hsplit : cookieKeysOf (l :: ls) = cookieKeysOf [l] ++ cookieKeysOf ls := by
      simpa using cookieKeysOf_append [l] ls
    constructor
    · rw [ih1, s1, s2, hsplit, List.append_assoc]
      by_cases hfl : st.cookieAdded
      · simp [hfl]
      · simp only [hfl, Bool.false_or, if_false]
        cases hck : cookieKeysOf [l] with
        | nil => simp
        | cons a as => simp [List.take]
    · rw [ih2, s2, hsplit]
      cases hck : cookieKeysOf [l] <;> simp [Bool.or_assoc]

theorem foldHT_cookie (lines : List (List Char)) :
    ∀ st : ParseState,
    (((lines.foldl HttpTemplate.step st).regular.filter fun k => lowerStr k == "cookie")
      = (st.regular.filter fun k => lowerStr k == "cookie")
        ++ (if st.cookieAdded then [] else (cookieKeysOf lines).take 1))
    ∧ (lines.foldl HttpTemplate.step st).cookieAdded
        = (st.cookieAdded || !(cookieKeysOf lines).isEmpty) := by
  induction lines with
  | nil => intro st; simp [cookieKeysOf]
  | cons l ls ih =>
    intro st
    rw [List.foldl_cons]
    obtain ⟨ih1, ih2⟩ := ih (HttpTemplate.step st l)
    obtain ⟨s1, s2⟩ := stepHT_cookie_filter st l
    have hsplit : cookieKeysOf (l :: ls) = cookieKeysOf [l] ++ cookieKeysOf ls := by
      simpa using cookieKeysOf_append [l] ls
    constructor
    · rw [ih1, s1, s2, hsplit, List.append_assoc]
      by_cases hfl : st.cookieAdded
      · simp [hfl]
      · simp only [hfl, Bool.false_or, if_false]
        cases hck : cookieKeysOf [l] with
        | nil => simp
        | cons a as => simp [List.take]
    · rw [ih2, s2, hsplit]
      cases hck : cookieKeysOf [l] <;> simp [Bool.or_assoc]

theorem stepHT_lookup_cookie (st : ParseState) (line : List Char) (k : String)
    (hk : lowerStr k = "cookie") :
    headerLookup (HttpTemplate.step st line).headers k = headerLookup st.headers k := by
  cases hcl : classifyLine line with
  | none => rw [stepHT_none hcl]
  | some kv =>
    obtain ⟨key, value⟩ := kv
    rw [stepHT_some hcl]
    by_cases hps : startsColon key
    · rw [if_pos hps]
    · rw [if_neg hps]
      by_cases hck : lowerStr key = "cookie"
      · rw [if_pos hck]
        by_cases hfl : st.cookieAdded
        · rw [if_pos hfl]
        · rw [if_neg hfl]
      · rw [if_neg hck]
        simp only []
        rw [headerLookup_addHeaderValue]
        have hkey : ¬k = key := fun he => hck (he ▸ hk)
        rw [if_neg hkey]

theorem foldHT_lookup_cookie (lines : List (List Char)) (k : String)
    (hk : lowerStr k = "cookie") :
    ∀ st : ParseState,
    headerLookup (lines.foldl HttpTemplate.step st).headers k = headerLookup st.headers k := by
  induction lines with
  | nil => intro st; rfl
  | cons l ls ih =>
    intro st
    rw [List.foldl_cons, ih (HttpTemplate.step st l), stepHT_lookup_cookie st l k hk]

/-- Claim C3: in both implementations a key case-insensitively equal to
"cookie" is recorded in the regular-order list at most once — exactly the
first occurrence's key with its original casing, later occurrences
contributing nothing — and no cookie key is ever a key of the value map. -/
theorem claim3_cookie (text : String) :
    (((Headerloader.parseStateOf text).regular.filter fun k => lowerStr k == "cookie")
        = (cookieKeysOf ((scanLines text.data).drop 1)).take 1)
    ∧ ((Headerloader.parseStateOf text).regular.countP (fun k => lowerStr k == "cookie") ≤ 1)
    ∧ (∀ k : String, lowerStr k = "cookie" →
        headerLookup (Headerloader.parseStateOf text).headers k = none)
    ∧ (((HttpTemplate.parseStateOf text).regular.filter fun k => lowerStr k == "cookie")
        = (cookieKeysOf ((scanLines text.data).drop 1)).take 1)
    ∧ ((HttpTemplate.parseStateOf text).regular.countP (fun k => lowerStr k == "cookie") ≤ 1)
    ∧ (∀ k : String, lowerStr k = "cookie" →
        headerLookup (HttpTemplate.parseStateOf text).headers k = none) := by
  unfold Headerloader.parseStateOf HttpTemplate.parseStateOf
  cases hsc : scanLines text.data with
  | nil =>
    refine ⟨by simp [cookieKeysOf, initState], by simp [initState], fun k hk => rfl,
            by simp [cookieKeysOf, initState], by simp [initState], fun k hk => rfl⟩
  | cons l rest =>
    have hHL := (foldHL_cookie rest initState).1
    have hHT := (foldHT_cookie rest initState).1
    have hHL' : ((rest.foldl Headerloader.step initState).regular.filter
        fun k => lowerStr k == "cookie") = (cookieKeysOf rest).take 1 := by
      simpa [initState] using hHL
    have hHT' : ((rest.foldl HttpTemplate.step initState).regular.filter
        fun k => lowerStr k == "cookie") = (cookieKeysOf rest).take 1 := by
      simpa [initState] using hHT
    refine ⟨by simpa using hHL', ?_, ?_, by simpa using hHT', ?_, ?_⟩
    · rw [List.countP_eq_length_filter, hHL']
      exact List.length_take_le 1 (cookieKeysOf rest)
    · intro k hk
      rw [foldHL_lookup_suppressed rest k (Or.inl hk) initState]
      rfl
    · rw [List.countP_eq_length_filter, hHT']
      exact List.length_take_le 1 (cookieKeysOf rest)
    · intro k hk
      rw [foldHT_lookup_cookie rest k hk initState]
      rfl

/-- Concrete instantiation for claim C3. -/
theorem claim3_cookie_witness :
    headerLookup (Headerloader.parseStateOf "REQ\nCookie: a=1\ncookie: b=2\n").headers "Cookie"
      = none :=
  (claim3_cookie "REQ\nCookie: a=1\ncookie: b=2\n").2.2.1 "Cookie" (by decide)

/-! ### Key invariants of the collector state and the assembled map -/

/-- Keys of the association-list model of the Go map. -/
def headerKeys (hs : List (String × List String)) : List String :=
  hs.map Prod.fst

theorem headerKeys_addHeaderValue (key v : String) :
    ∀ hs, ∀ k ∈ headerKeys (addHeaderValue hs key v), k ∈ headerKeys hs ∨ k = key := by
  intro hs
  induction hs with
  | nil =>
    intro k hk
    simp [addHeaderValue, headerKeys] at hk
    exact Or.inr hk
  | cons e rest ih =>
    obtain ⟨k', vs⟩ := e
    intro k hk
    simp only [addHeaderValue] at hk
    by_cases h1 : k' = key
    · rw [if_pos h1] at hk
      simp only [headerKeys, List.map_cons] at hk
      rcases List.mem_cons.mp hk with h | h
      · left; simp [headerKeys, h]
      · left; simp only [headerKeys, List.map_cons]; exact List.mem_cons_of_mem _ h
    · rw [if_neg h1] at hk
      simp only [headerKeys, List.map_cons] at hk
      rcases List.mem_cons.mp hk with h | h
      · left; simp [headerKeys, h]
      · rcases ih k h with h' | h'
        · left; simp only [headerKeys, List.map_cons]; exact List.mem_cons_of_mem _ h'
        · exact Or.inr h'

theorem headerKeys_setHeader (key : String) (vs : List String) :
    ∀ hs, ∀ k ∈ headerKeys (setHeader hs key vs), k ∈ headerKeys hs ∨ k = key := by
  intro hs
  induction hs with
  | nil =>
    intro k hk
    simp [setHeader, headerKeys] at hk
    exact Or.inr hk
  | cons e rest ih =>
    obtain ⟨k', ws⟩ := e
    intro k hk
    simp only [setHeader] at hk
    by_cases h1 : k' = key
    · rw [if_pos h1] at hk
      simp only [headerKeys, List.map_cons] at hk
      rcases List.mem_cons.mp hk with h | h
      · exact Or.inr h
      · left; simp only [headerKeys, List.map_cons]; exact List.mem_cons_of_mem _ h
    · rw [if_neg h1] at hk
      simp only [headerKeys, List.map_cons] at hk
      rcases List.mem_cons.mp hk with h | h
      · left; simp [headerKeys, h]
      · rcases ih k h with h' | h'
        · left; simp only [headerKeys, List.map_cons]; exact List.mem_cons_of_mem _ h'
        · exact Or.inr h'

theorem headerKeys_assemble (st : ParseState) :
    ∀ k ∈ headerKeys (assemble st),
      k ∈ headerKeys st.headers ∨ k = PHeaderOrderKey ∨ k = HeaderOrderKey := by
  intro k hk
  simp only [assemble] at hk
  by_cases h2 : 0 < st.regular.length
  · rw [if_pos h2] at hk
    rcases headerKeys_setHeader HeaderOrderKey st.regular _ k hk with h | h
    · by_cases h1 : 0 < st.pseudo.length
      · rw [if_pos h1] at h
        rcases headerKeys_setHeader PHeaderOrderKey st.pseudo _ k h with h' | h'
        · exact Or.inl h'
        · exact Or.inr (Or.inl h')
      · rw [if_neg h1] at h
        exact Or.inl h
    · exact Or.inr (Or.inr h)
  · rw [if_neg h2] at hk
    by_cases h1 : 0 < st.pseudo.length
    · rw [if_pos h1] at hk
      rcases headerKeys_setHeader PHeaderOrderKey st.pseudo _ k hk with h | h
      · exact Or.inl h
      · exact Or.inr (Or.inl h)
    · rw [if_neg h1] at hk
      exact Or.inl hk

/-- Invariant of the collector: pseudo names start with a colon, and value-map
keys are colon-free and not `cookie`/`content-length`. -/
def stateInv (st : ParseState) : Prop :=
  (∀ n ∈ st.pseudo, startsColon n = true)
  ∧ ∀ k ∈ headerKeys st.headers,
      ':' ∉ k.data ∧ lowerStr k ≠ "cookie" ∧ lowerStr k ≠ "content-length"

theorem stepHL_inv (st : ParseState) (line : List Char) (h : stateInv st) :
    stateInv (Headerloader.step st line) := by
  cases hcl : classifyLine line with
  | none => rw [stepHL_none hcl]; exact h
  | some kv =>
    obtain ⟨key, value⟩ := kv
    obtain ⟨hkey_ne, hkey_col⟩ := classifyLine_key hcl
    rw [stepHL_some hcl]
    obtain ⟨h1, h2⟩ := h
    by_cases hps : startsColon key
    · rw [if_pos hps]
      refine ⟨?_, h2⟩
      intro n hn
      rcases List.mem_append.mp hn with h' | h'
      · exact h1 n h'
      · simp at h'
        rw [h']
        exact hps
    · rw [if_neg hps]
      have hcol : ':' ∉ key.data := by
        rcases hkey_col with h' | h'
        · exact absurd h' hps
        · exact h'
      by_cases hck : lowerStr key = "cookie"
      · rw [if_pos hck]
        by_cases hfl : st.cookieAdded
        · rw [if_pos hfl]; exact ⟨h1, h2⟩
        · rw [if_neg hfl]; exact ⟨h1, h2⟩
      · rw [if_neg hck]
        by_cases hcl2 : lowerStr key = "content-length"
        · rw [if_pos hcl2]; exact ⟨h1, h2⟩
        · rw [if_neg hcl2]
          refine ⟨h1, ?_⟩
          intro k hk
          rcases headerKeys_addHeaderValue key value st.headers k hk with h' | h'
          · exact h2 k h'
          · rw [h']
            exact ⟨hcol, hck, hcl2⟩

theorem foldHL_inv (lines : List (List Char)) :
    ∀ st : ParseState, stateInv st → stateInv (lines.foldl Headerloader.step st) := by
  induction lines with
  | nil => intro st h; exact h
  | cons l ls ih =>
    intro st h
    rw [List.foldl_cons]
    exact ih _ (stepHL_inv st l h)

theorem initState_inv : stateInv initState :=
  ⟨by simp [initState], by simp [initState, headerKeys]⟩

theorem parseRendered_eq_assemble (text : String) :
    Headerloader.parseRendered text = assemble (Headerloader.parseStateOf text) := by
  unfold Headerloader.parseRendered Headerloader.parseStateOf
  cases scanLines text.data with
  | nil => rfl
  | cons l rest => rfl

/-- Claim C4: every name in the pseudo-order list starts with `':'`; no key of
the assembled map starts with `':'`; and every assembled key other than the
two reserved order keys is a non-pseudo name that is not case-insensitively
`cookie` or `content-length` (for the `template.go` implementation, whose
behaviour the spec describes). -/
theorem claim4_invariants (text : String) :
    (∀ n ∈ (Headerloader.parseStateOf text).pseudo, startsColon n = true)
    ∧ (∀ k ∈ headerKeys (Headerloader.parseRendered text), startsColon k = false)
    ∧ (∀ k ∈ headerKeys (Headerloader.parseRendered text),
        k ≠ HeaderOrderKey → k ≠ PHeaderOrderKey →
        startsColon k = false ∧ lowerStr k ≠ "cookie" ∧ lowerStr k ≠ "content-length") := by
  have hmain : stateInv (Headerloader.parseStateOf text) := by
    unfold Headerloader.parseStateOf
    cases scanLines text.data with
    | nil => exact initState_inv
    | cons l rest => exact foldHL_inv rest initState initState_inv
  obtain ⟨hp, hh⟩ := hmain
  refine ⟨hp, ?_, ?_⟩
  · intro k hk
    rw [parseRendered_eq_assemble] at hk
    rcases headerKeys_assemble _ k hk with h | h | h
    · exact startsColon_eq_false (hh k h).1
    · rw [h]; decide
    · rw [h]; decide
  · intro k hk hne1 hne2
    rw [parseRendered_eq_assemble] at hk
    rcases headerKeys_assemble _ k hk with h | h | h
    · exact ⟨startsColon_eq_false (hh k h).1, (hh k h).2⟩
    · exact absurd h hne2
    · exact absurd h hne1

/-- Concrete instantiation for claim C4. -/
theorem claim4_invariants_witness :
    startsColon ":method" = true ∧ startsColon "Host" = false :=
  ⟨(claim4_invariants "REQ\n:method: GET\nHost: a\n").1 ":method" (by decide),
   ((claim4_invariants "REQ\n:method: GET\nHost: a\n").2.2 "Host" (by decide)
      (by decide) (by decide)).1⟩

/-- Claim C5: the first rendered line never contributes entries — for every
body, parsing `"REQ LINE\n" ++ body` equals parsing `"IGNORED\n" ++ body`
(the `template.go` implementation). -/
theorem claim5_first_line (body : String) :
    Headerloader.parseRendered ("REQ LINE\n" ++ body)
      = Headerloader.parseRendered ("IGNORED\n" ++ body) := by
  obtain ⟨bl⟩ := body
  rfl

/-- Claim C6: a template compilation or execution failure makes both
implementations return no structure together with the phase-wrapped error,
and a result is never returned alongside an error. -/
theorem claim6_render_failure :
    (∀ msg : String,
        Headerloader.ParseHeaderTemplate (RenderResult.parseFailure msg)
          = (none, some ("failed to parse template string: " ++ msg))
        ∧ HttpTemplate.ParseHeaderTemplate (RenderResult.parseFailure msg)
          = (none, some ("failed to parse template string: " ++ msg)))
    ∧ (∀ msg : String,
        Headerloader.ParseHeaderTemplate (RenderResult.execFailure msg)
          = (none, some ("failed to execute template: " ++ msg))
        ∧ HttpTemplate.ParseHeaderTemplate (RenderResult.execFailure msg)
          = (none, some ("failed to execute template: " ++ msg)))
    ∧ (∀ r : RenderResult,
        (Headerloader.ParseHeaderTemplate r).1 = none
          ∨ (Headerloader.ParseHeaderTemplate r).2 = none)
    ∧ (∀ r : RenderResult,
        (HttpTemplate.ParseHeaderTemplate r).1 = none
          ∨ (HttpTemplate.ParseHeaderTemplate r).2 = none) := by
  refine ⟨fun msg => ⟨rfl, rfl⟩, fun msg => ⟨rfl, rfl⟩, ?_, ?_⟩
  · intro r
    cases r with
    | parseFailure msg => exact Or.inl rfl
    | execFailure msg => exact Or.inl rfl
    | rendered text => exact Or.inr rfl
  · intro r
    cases r with
    | parseFailure msg => exact Or.inl rfl
    | execFailure msg => exact Or.inl rfl
    | rendered text => exact Or.inr rfl

/-- Claim C8: a line that trims to empty, or whose trimmed text has no colon,
is skipped by both loop bodies — no header entry, no order entry — and
parsing rendered text never yields an error. -/
theorem claim8_skips (st : ParseState) (line : List Char)
    (h : trimSpace line = [] ∨ ':' ∉ trimSpace line) :
    Headerloader.step st line = st ∧ HttpTemplate.step st line = st
    ∧ ∀ text : String,
        (Headerloader.ParseHeaderTemplate (RenderResult.rendered text)).2 = none := by
  have hcl : classifyLine line = none := by
    simp only [classifyLine]
    rcases h with h | h
    · rw [if_pos h]
    · by_cases h0 : trimSpace line = []
      · rw [if_pos h0]
      · rw [if_neg h0, breakColon_of_not_mem h]
  exact ⟨stepHL_none hcl, stepHT_none hcl, fun text => rfl⟩

/-- Concrete instantiation for claim C8. -/
theorem claim8_skips_witness :
    Headerloader.step initState ("no colon here".data) = initState :=
  (claim8_skips initState ("no colon here".data) (Or.inr (by decide))).1

/-! ### Texts without a second line -/

theorem scanLinesGo_no_nl : ∀ (cs : List Char) (acc : List Char), '\n' ∉ cs →
    scanLinesGo acc cs = [dropCR (acc.reverse ++ cs)] := by
  intro cs
  induction cs with
  | nil =>
    intro acc h
    simp [scanLinesGo]
  | cons c cs ih =>
    intro acc h
    have hc : ¬c = '\n' := fun he => h (he ▸ List.mem_cons_self c cs)
    rw [scanLinesGo, if_neg hc, ih (c :: acc) (fun hm => h (List.mem_cons_of_mem c hm))]
    simp

theorem scanLinesGo_nl_end : ∀ (cs : List Char) (acc : List Char), '\n' ∉ cs →
    scanLinesGo acc (cs ++ ['\n']) = [dropCR (acc.reverse ++ cs)] := by
  intro cs
  induction cs with
  | nil =>
    intro acc h
    simp [scanLinesGo]
  | cons c cs ih =>
    intro acc h
    have hc : ¬c = '\n' := fun he => h (he ▸ List.mem_cons_self c cs)
    rw [List.cons_append, scanLinesGo, if_neg hc,
        ih (c :: acc) (fun hm => h (List.mem_cons_of_mem c hm))]
    simp

theorem parseRendered_no_nl (s : String) (h : '\n' ∉ s.data) :
    Headerloader.parseRendered s = [] := by
  unfold Headerloader.parseRendered
  cases hs : s.data with
  | nil => rfl
  | cons c cs =>
    rw [hs] at h
    have h1 : scanLines (c :: cs) = [dropCR (c :: cs)] := by
      unfold scanLines
      rw [if_neg (by simp), scanLinesGo_no_nl (c :: cs) [] h]
      simp
    rw [h1]
    show assemble (List.foldl Headerloader.step initState []) = []
    rfl

theorem parseRendered_no_nl_trailing (s : String) (h : '\n' ∉ s.data) :
    Headerloader.parseRendered (s ++ "\n") = [] := by
  unfold Headerloader.parseRendered
  have hd : (s ++ "\n").data = s.data ++ ['\n'] := by
    obtain ⟨l⟩ := s
    rfl
  rw [hd]
  have h1 : scanLines (s.data ++ ['\n']) = [dropCR s.data] := by
    unfold scanLines
    rw [if_neg (by simp), scanLinesGo_nl_end s.data [] h]
    simp
  rw [h1]
  show assemble (List.foldl Headerloader.step initState []) = []
  rfl

/-- Claim C9: rendered text that is empty or consists of only the request
line (with or without its trailing newline) yields an empty value map with
neither reserved order key present, and no error. -/
theorem claim9_only_request_line (s : String) (h : '\n' ∉ s.data) :
    Headerloader.ParseHeaderTemplate (RenderResult.rendered s) = (some [], none)
    ∧ Headerloader.ParseHeaderTemplate (RenderResult.rendered (s ++ "\n")) = (some [], none) := by
  constructor
  · show (some (Headerloader.parseRendered s), none) = (some [], none)
    rw [parseRendered_no_nl s h]
  · show (some (Headerloader.parseRendered (s ++ "\n")), none) = (some [], none)
    rw [parseRendered_no_nl_trailing s h]

/-- Concrete instantiation for claim C9. -/
theorem claim9_only_request_line_witness :
    Headerloader.ParseHeaderTemplate (RenderResult.rendered "GET / HTTP/2") = (some [], none) :=
  (claim9_only_request_line "GET / HTTP/2" (by decide)).1

/-- Claim C10: for every processed line that trims non-empty and contains a
colon (that is, on which the first-colon split succeeds), the computed key
is non-empty, so the skip-on-empty-key branch is unreachable and the line is
always classified as the computed pair. -/
theorem claim10_key_nonempty (line pk pv : List Char)
    (hb : breakColon (trimSpace line) = some (pk, pv)) :
    (computeKV (trimSpace line) pk pv).1 ≠ ""
    ∧ classifyLine line = some (computeKV (trimSpace line) pk pv) :=
  ⟨computeKV_key_ne_empty hb, classifyLine_eq_some hb⟩

/-- Concrete instantiation for claim C10. -/
theorem claim10_key_nonempty_witness :
    (computeKV (trimSpace "Host: a".data) "Host".data " a".data).1 ≠ "" :=
  (claim10_key_nonempty "Host: a".data "Host".data " a".data (by decide)).1

/-! ### Accumulation of ordinary regular headers -/

/-- Sequential composition of value batches on an optional map entry. -/
def joinVals : Option (List String) → List String → Option (List String)
  | none, [] => none
  | none, v :: vs => some (v :: vs)
  | some vs, ws => some (vs ++ ws)

/-- The trimmed values of the lines classified to exactly the key `k`. -/
def valuesOf (lines : List (List Char)) (k : String) : List String :=
  lines.filterMap fun l =>
    match classifyLine l with
    | some kv => if kv.1 = k then some kv.2 else none
    | none => none

/-- The number of lines classified to exactly the key `k`. -/
def occOf (lines : List (List Char)) (k : String) : Nat :=
  lines.countP fun l =>
    match classifyLine l with
    | some kv => kv.1 == k
    | none => false

theorem joinVals_nil (o : Option (List String)) : joinVals o [] = o := by
  cases o with
  | none => rfl
  | some vs => simp [joinVals]

theorem joinVals_append (o : Option (List String)) (a b : List String) :
    joinVals (joinVals o a) b = joinVals o (a ++ b) := by
  cases o with
  | none =>
    cases a with
    | nil => simp [joinVals]
    | cons v vs => simp [joinVals]
  | some vs => simp [joinVals, List.append_assoc]

theorem stepHL_lookup_line (st : ParseState) (l : List Char) (k : String)
    (h1 : startsColon k = false) (h2 : lowerStr k ≠ "cookie")
    (h3 : lowerStr k ≠ "content-length") :
    headerLookup (Headerloader.step st l).headers k
      = joinVals (headerLookup st.headers k) (valuesOf [l] k) := by
  cases hcl : classifyLine l with
  | none =>
    rw [stepHL_none hcl]
    simp [valuesOf, hcl, joinVals_nil]
  | some kv =>
    obtain ⟨key, value⟩ := kv
    simp only [valuesOf, List.filterMap_cons, List.filterMap_nil, hcl]
    rw [stepHL_some hcl]
    by_cases hps : startsColon key
    · rw [if_pos hps]
      have hne : ¬key = k := by
        intro he
        rw [he, h1] at hps
        exact Bool.false_ne_true hps
      simp [hne, joinVals_nil]
    · rw [if_neg hps]
      by_cases hck : lowerStr key = "cookie"
      · have hne : ¬key = k := fun he => h2 (he ▸ hck)
        rw [if_pos hck]
        by_cases hfl : st.cookieAdded
        · rw [if_pos hfl]; simp [hne, joinVals_nil]
        · rw [if_neg hfl]; simp [hne, joinVals_nil]
      · rw [if_neg hck]
        by_cases hcl2 : lowerStr key = "content-length"
        · have hne : ¬key = k := fun he => h3 (he ▸ hcl2)
          rw [if_pos hcl2]
          simp [hne, joinVals_nil]
        · rw [if_neg hcl2]
          simp only []
          rw [headerLookup_addHeaderValue]
          by_cases hkk : k = key
          · rw [if_pos hkk]
            subst hkk
            cases hlk : headerLookup st.headers k with
            | none => simp [joinVals]
            | some vs => simp [joinVals]
          · rw [if_neg hkk]
            have hne : ¬key = k := fun he => hkk he.symm
            simp [hne, joinVals_nil]

theorem foldHL_lookup_line (lines : List (List Char)) (k : String)
    (h1 : startsColon k = false) (h2 : lowerStr k ≠ "cookie")
    (h3 : lowerStr k ≠ "content-length") :
    ∀ st : ParseState,
    headerLookup (lines.foldl Headerloader.step st).headers k
      = joinVals (headerLookup st.headers k) (valuesOf lines k) := by
  induction lines with
  | nil =>
    intro st
    rw [List.foldl_nil]
    exact (joinVals_nil _).symm
  | cons l ls ih =>
    intro st
    rw [List.foldl_cons, ih (Headerloader.step st l), stepHL_lookup_line st l k h1 h2 h3,
        joinVals_append]
    have hsplit : valuesOf (l :: ls) k = valuesOf [l] k ++ valuesOf ls k := by
      simpa [valuesOf] using List.filterMap_append [l] ls _
    rw [hsplit]

theorem stepHL_count_line (st : ParseState) (l : List Char) (k : String)
    (h1 : startsColon k = false) (h2 : lowerStr k ≠ "cookie")
    (h3 : lowerStr k ≠ "content-length") :
    (Headerloader.step st l).regular.countP (fun x => x == k)
      = st.regular.countP (fun x => x == k) + occOf [l] k := by
  cases hcl : classifyLine l with
  | none =>
    rw [stepHL_none hcl]
    simp [occOf, hcl]
  | some kv =>
    obtain ⟨key, value⟩ := kv
    simp only [occOf, List.countP_cons, List.countP_nil, hcl]
    rw [stepHL_some hcl]
    by_cases hps : startsColon key
    · rw [if_pos hps]
      have hne : ¬key = k := by
        intro he
        rw [he, h1] at hps
        exact Bool.false_ne_true hps
      simp [hne]
    · rw [if_neg hps]
      by_cases hck : lowerStr key = "cookie"
      · have hne : ¬key = k := fun he => h2 (he ▸ hck)
        rw [if_pos hck]
        by_cases hfl : st.cookieAdded
        · rw [if_pos hfl]; simp [hne]
        · rw [if_neg hfl]; simp [hne, List.countP_append]
      · rw [if_neg hck]
        by_cases hcl2 : lowerStr key = "content-length"
        · have hne : ¬key = k := fun he => h3 (he ▸ hcl2)
          rw [if_pos hcl2]
          simp [hne, List.countP_append]
        · rw [if_neg hcl2]
          simp [List.countP_append, List.countP_cons]

theorem foldHL_count_line (lines : List (List Char)) (k : String)
    (h1 : startsColon k = false) (h2 : lowerStr k ≠ "cookie")
    (h3 : lowerStr k ≠ "content-length") :
    ∀ st : ParseState,
    (lines.foldl Headerloader.step st).regular.countP (fun x => x == k)
      = st.regular.countP (fun x => x == k) + occOf lines k := by
  induction lines with
  | nil => intro st; simp [occOf]
  | cons l ls ih =>
    intro st
    rw [List.foldl_cons, ih (Headerloader.step st l), stepHL_count_line st l k h1 h2 h3]
    have hsplit : occOf (l :: ls) k = occOf [l] k + occOf ls k := by
      unfold occOf
      rw [List.countP_cons, List.countP_cons, List.countP_nil]
      omega
    rw [hsplit]
    omega

/-- Claim C7: for every regular key `k` that is not case-insensitively
`cookie` or `content-length`, the value map's entry under exactly `k` is the
ordered list of the trimmed values of `k`'s occurrences (absent when there is
none), the regular-order list carries one entry per occurrence of exactly
`k`, and — keys not being case-folded — the spec's example inputs evaluate
as stated, `"REQ\nX-A: 1\nX-A: 2\n"` giving value map `{"X-A": ["1", "2"]}`
with regular order `["X-A", "X-A"]`. -/
theorem claim7_regular_headers (text : String) (k : String)
    (h1 : startsColon k = false) (h2 : lowerStr k ≠ "cookie")
    (h3 : lowerStr k ≠ "content-length") :
    (headerLookup (Headerloader.parseStateOf text).headers k
        = joinVals none (valuesOf ((scanLines text.data).drop 1) k))
    ∧ ((Headerloader.parseStateOf text).regular.countP (fun x => x == k)
        = occOf ((scanLines text.data).drop 1) k)
    ∧ Headerloader.parseRendered "REQ\nX-A: 1\nX-A: 2\n"
        = [("X-A", ["1", "2"]), (HeaderOrderKey, ["X-A", "X-A"])]
    ∧ Headerloader.parseRendered "REQ\nX-A: 1\nx-a: 2\n"
        = [("X-A", ["1"]), ("x-a", ["2"]), (HeaderOrderKey, ["X-A", "x-a"])] := by
  refine ⟨?_, ?_, by decide, by decide⟩
  · unfold Headerloader.parseStateOf
    cases hsc : scanLines text.data with
    | nil => simp [initState, valuesOf, headerLookup, joinVals]
    | cons l rest =>
      rw [foldHL_lookup_line rest k h1 h2 h3 initState]
      simp [initState, headerLookup]
  · unfold Headerloader.parseStateOf
    cases hsc : scanLines text.data with
    | nil => simp [initState, occOf]
    | cons l rest =>
      rw [foldHL_count_line rest k h1 h2 h3 initState]
      simp [initState]

/-- Concrete instantiation for claim C7. -/
theorem claim7_regular_headers_witness :
    headerLookup (Headerloader.parseStateOf "REQ\nX-A: 1\nX-A: 2\n").headers "X-A"
      = joinVals none (valuesOf ((scanLines ("REQ\nX-A: 1\nX-A: 2\n").data).drop 1) "X-A") :=
  (claim7_regular_headers "REQ\nX-A: 1\nX-A: 2\n" "X-A" (by decide) (by decide) (by decide)).1
